import Mathlib

/-!
Verification of the Expiring Bounded Cache (`CacheManager`) and the
Resilient Request Client (`ApiClient`) from
`src/components/ClientSideFeatures.ts`.

The JavaScript `Map<string, {value, timestamp}>` is embedded as an
association list in insertion order (a JS `Map` iterates in insertion
order and keeps keys unique).  JavaScript values stored in the cache are
embedded as `JsValue`, carrying the truthiness notion the source relies
on (`if (oldestKey)`, `if (cached)`).  Timestamps (`Date.now()`) are
passed in explicitly as naturals.
-/

/-- A JavaScript value as stored in the cache / returned by the client.
Covers the primitive shapes whose truthiness the source code branches on. -/
inductive JsValue where
  | null
  | undef
  | bool (b : Bool)
  | num (n : Int)
  | str (s : String)
  deriving DecidableEq, Repr

/-- JS truthiness: `null`, `undefined`, `false`, `0` and `""` are falsy. -/
def JsValue.truthy : JsValue → Bool
  | .null => false
  | .undef => false
  | .bool b => b
  | .num n => n != 0
  | .str s => s != ""

/-- Truthiness of a `get` result (`any | null`); `null` (= `none`) is falsy. -/
def truthyOpt : Option JsValue → Bool
  | none => false
  | some v => v.truthy

/-- A cache record: `{ value: any; timestamp: number }`. -/
structure Entry (α : Type) where
  value : α
  timestamp : Nat
  deriving DecidableEq, Repr

/-- `Map.prototype.get`: first (unique) binding of the key. -/
def mapGet {α : Type} : List (String × Entry α) → String → Option (Entry α)
  | [], _ => none
  | p :: rest, k => if p.1 = k then some p.2 else mapGet rest k

/-- `Map.prototype.set`: overwrite in place if the key is bound, else append. -/
def mapSet {α : Type} : List (String × Entry α) → String → Entry α → List (String × Entry α)
  | [], k, e => [(k, e)]
  | p :: rest, k, e => if p.1 = k then (k, e) :: rest else p :: mapSet rest k e

/-- `Map.prototype.delete`: remove the binding of the key (a JS map holds
each key at most once, so filtering is removal of that one binding). -/
def mapDelete {α : Type} (l : List (String × Entry α)) (k : String) :
    List (String × Entry α) :=
  l.filter (fun p => p.1 ≠ k)

/-- The `CacheManager` instance state: the entry map plus the construction
options `{ maxAge, maxSize }`.  The source never stores the handle returned
by `setInterval`, so the state has no field for it. -/
structure CacheManager (α : Type) where
  cache : List (String × Entry α)
  maxAge : Nat
  maxSize : Nat
  deriving DecidableEq, Repr

/-- `new CacheManager(options)`: starts with an empty map. -/
def CacheManager.init (α : Type) (maxAge maxSize : Nat) : CacheManager α :=
  ⟨[], maxAge, maxSize⟩

/-- The `forEach` scan of `evictOldest`: fold over the entries in insertion
order tracking `oldestKey` (initially `null` = `none`) and
`oldestTimestamp` (initially `Infinity` = `none`), updating both whenever
`entry.timestamp < oldestTimestamp`. -/
def findOldest {α : Type} (l : List (String × Entry α)) :
    Option String × Option Nat :=
  l.foldl
    (fun acc p =>
      match acc.2 with
      | none => (some p.1, some p.2.timestamp)
      | some t => if p.2.timestamp < t then (some p.1, some p.2.timestamp) else acc)
    (none, none)

/-- `CacheManager.evictOldest`: delete the key found by the scan — but the
source guards with `if (oldestKey)`, a truthiness test, so both `null` and
the empty-string key leave the cache untouched. -/
def CacheManager.evictOldest {α : Type} (c : CacheManager α) : CacheManager α :=
  match (findOldest c.cache).1 with
  | none => c
  | some k => if k = "" then c else { c with cache := mapDelete c.cache k }

/-- `CacheManager.set(key, value)`: evict first when `size >= maxSize`
(regardless of whether `key` is already present), then write the entry
stamped with the current time. -/
def CacheManager.set {α : Type} (c : CacheManager α) (key : String) (value : α)
    (now : Nat) : CacheManager α :=
  let c' := if c.cache.length ≥ c.maxSize then c.evictOldest else c
  { c' with cache := mapSet c'.cache key ⟨value, now⟩ }

/-- `CacheManager.get(key)`: absent keys yield `null`; an entry with
`now - timestamp > maxAge` is deleted and `null` returned; otherwise the
stored value is returned with the state untouched. -/
def CacheManager.get {α : Type} (c : CacheManager α) (key : String) (now : Nat) :
    Option α × CacheManager α :=
  match mapGet c.cache key with
  | none => (none, c)
  | some e =>
    if now - e.timestamp > c.maxAge then
      (none, { c with cache := mapDelete c.cache key })
    else
      (some e.value, c)

/-- `CacheManager.clear()`. -/
def CacheManager.clear {α : Type} (c : CacheManager α) : CacheManager α :=
  { c with cache := [] }

/-- One public cache operation, for quantifying over call sequences. -/
inductive CacheOp (α : Type) where
  | set (key : String) (value : α) (now : Nat)
  | get (key : String) (now : Nat)
  | clear
  deriving DecidableEq, Repr

/-- Apply one operation to the cache state (`get` for its state effect). -/
def applyOp {α : Type} (c : CacheManager α) : CacheOp α → CacheManager α
  | .set k v now => c.set k v now
  | .get k now => (c.get k now).2
  | .clear => c.clear

/-- Apply a sequence of operations left to right. -/
def applyOps {α : Type} (c : CacheManager α) (ops : List (CacheOp α)) :
    CacheManager α :=
  ops.foldl applyOp c

/-! ### The resilient request client (`ApiClient`) -/

/-- The `ApiConfig` construction record.  `retryAttempts` is kept as an
integer so that the out-of-contract values `<= 0` remain expressible. -/
structure ApiConfig where
  baseUrl : String
  timeout : Nat
  retryAttempts : Int
  deriving DecidableEq, Repr

/-- The failure a `request` call can throw to its caller: either the
rethrown last underlying transport error (`if (attempt === retryAttempts)
throw error`), or the generic
`Error('Request failed after all retry attempts')` after the `while` loop
falls through. -/
inductive RequestFailure where
  | lastError (e : String)
  | allRetriesFailed
  deriving DecidableEq, Repr

/-- The observable outcome of one `request` call: the settled value or
failure, the number of transport (`executeRequest`) invocations, the
backoff waits performed (in order, in milliseconds), and the cache state
afterwards. -/
structure RequestResult where
  outcome : Except RequestFailure JsValue
  calls : Nat
  waits : List Nat
  cm : CacheManager JsValue
  deriving Repr

/-- `JSON.stringify` on the embedded values, as used to build the cache
key (`stringify(undefined)` renders as `undefined` in the template). -/
def JsValue.stringify : JsValue → String
  | .null => "null"
  | .undef => "undefined"
  | .bool b => cond b "true" "false"
  | .num n => toString n
  | .str s => "\"" ++ s ++ "\""

/-- The cache key: `` `${method}:${endpoint}:${JSON.stringify(options.body)}` ``. -/
def computeCacheKey (method endpoint : String) (body : Option JsValue) : String :=
  method ++ ":" ++ endpoint ++ ":" ++
    (match body with
     | none => "undefined"
     | some v => v.stringify)

/-- The `while (attempt < retryAttempts)` loop of `ApiClient.request`.
`attempt` is the 0-based counter of the source; `remaining` is the number
of loop iterations still permitted, i.e. `retryAttempts - attempt`
(clamped at 0), so the loop body runs exactly while `remaining > 0`.
The transport stub is a function of the 0-based attempt index.  On a
caught failure the source increments `attempt`, rethrows when
`attempt === retryAttempts` (i.e. `remaining` was 1), and otherwise waits
`1000 * attempt` before the next iteration. -/
def attemptLoop (transport : Nat → Except String JsValue) (useCache : Bool)
    (cacheKey : String) (now : Nat) :
    CacheManager JsValue → Nat → Nat → RequestResult
  | cm, _, 0 => ⟨.error .allRetriesFailed, 0, [], cm⟩
  | cm, attempt, remaining + 1 =>
    match transport attempt with
    | .ok v =>
      let cm' := if useCache then cm.set cacheKey v now else cm
      ⟨.ok v, 1, [], cm'⟩
    | .error e =>
      if remaining = 0 then
        ⟨.error (.lastError e), 1, [], cm⟩
      else
        let rest := attemptLoop transport useCache cacheKey now cm (attempt + 1) remaining
        ⟨rest.outcome, rest.calls + 1, 1000 * (attempt + 1) :: rest.waits, rest.cm⟩

/-- `ApiClient.request(method, endpoint, { body, headers, useCache })`:
compute the cache key; if `useCache` is set, `get` from the cache and
return the cached value when it is truthy (`if (cached) return cached`);
otherwise run the attempt loop. -/
def ApiClient.request (cfg : ApiConfig) (cm : CacheManager JsValue)
    (method endpoint : String) (body : Option JsValue) (useCache : Bool)
    (transport : Nat → Except String JsValue) (now : Nat) : RequestResult :=
  let cacheKey := computeCacheKey method endpoint body
  if useCache then
    let r := cm.get cacheKey now
    match r.1 with
    | some v =>
      if v.truthy then ⟨.ok v, 0, [], r.2⟩
      else attemptLoop transport useCache cacheKey now r.2 0 cfg.retryAttempts.toNat
    | none => attemptLoop transport useCache cacheKey now r.2 0 cfg.retryAttempts.toNat
  else
    attemptLoop transport useCache cacheKey now cm 0 cfg.retryAttempts.toNat

/-! ### The recurring sweep timer -/

/-- The browser's interval-timer registry: `setInterval` hands out the next
id and marks it active; `clearInterval` would remove an id. -/
structure TimerWorld where
  nextId : Nat
  active : List Nat
  deriving DecidableEq, Repr

/-- `window.setInterval(...)`: registers a recurring timer, returning its id. -/
def setIntervalModel (w : TimerWorld) : Nat × TimerWorld :=
  (w.nextId, ⟨w.nextId + 1, w.active ++ [w.nextId]⟩)

/-- The `CacheManager` constructor: `setupCleanupInterval()` registers the
periodic sweep but the returned id is discarded — the source never stores
it and the instance state has no field for it. -/
def CacheManager.construct (α : Type) (maxAge maxSize : Nat) (w : TimerWorld) :
    CacheManager α × TimerWorld :=
  let sweep := setIntervalModel w
  (⟨[], maxAge, maxSize⟩, sweep.2)

/-- A public cache operation together with its (absent) effect on the timer
registry: none of `set`, `get`, `clear` calls `clearInterval`, and the class
exposes no other method. -/
def applyOpW {α : Type} (s : CacheManager α × TimerWorld) (op : CacheOp α) :
    CacheManager α × TimerWorld :=
  (applyOp s.1 op, s.2)

/-- Apply a sequence of public operations, threading the timer registry. -/
def applyOpsW {α : Type} (s : CacheManager α × TimerWorld) (ops : List (CacheOp α)) :
    CacheManager α × TimerWorld :=
  ops.foldl applyOpW s

/-! ### Lemmas about the embedded `Map` operations -/

theorem mapGet_mapSet_self {α : Type} (l : List (String × Entry α)) (k : String)
    (e : Entry α) : mapGet (mapSet l k e) k = some e := by
  induction l with
  | nil => simp [mapSet, mapGet]
  | cons p rest ih =>
    by_cases h : p.1 = k
    · simp [mapSet, mapGet, h]
    · simp [mapSet, mapGet, h, ih]

theorem mapGet_mapSet_ne {α : Type} (l : List (String × Entry α)) (k k' : String)
    (e : Entry α) (h : k' ≠ k) : mapGet (mapSet l k e) k' = mapGet l k' := by
  induction l with
  | nil => simp [mapSet, mapGet, Ne.symm h]
  | cons p rest ih =>
    by_cases hp : p.1 = k
    · simp [mapSet, mapGet, hp, Ne.symm h]
    · simp only [mapSet, if_neg hp, mapGet]
      by_cases hp' : p.1 = k'
      · simp [hp']
      · simp [hp', ih]

theorem mapGet_mapDelete_self {α : Type} (l : List (String × Entry α)) (k : String) :
    mapGet (mapDelete l k) k = none := by
  induction l with
  | nil => simp [mapDelete, mapGet]
  | cons p rest ih =>
    by_cases h : p.1 = k
    · simpa [mapDelete, List.filter, h] using ih
    · simpa [mapDelete, List.filter, h, mapGet] using ih

theorem mapGet_eq_none_of_not_mem {α : Type} (l : List (String × Entry α))
    (k : String) (h : k ∉ l.map Prod.fst) : mapGet l k = none := by
  induction l with
  | nil => rfl
  | cons p rest ih =>
    simp only [List.map_cons, List.mem_cons, not_or] at h
    simp [mapGet, Ne.symm h.1, ih h.2]

theorem mapGet_of_nodup {α : Type} (l : List (String × Entry α))
    (hnd : (l.map Prod.fst).Nodup) (p : String × Entry α) (hp : p ∈ l) :
    mapGet l p.1 = some p.2 := by
  induction l with
  | nil => cases hp
  | cons q rest ih =>
    simp only [List.map_cons, List.nodup_cons] at hnd
    rcases List.mem_cons.mp hp with h | h
    · subst h; simp [mapGet]
    · have hq : q.1 ≠ p.1 := by
        intro he
        exact hnd.1 (he ▸ List.mem_map_of_mem Prod.fst h)
      simp [mapGet, hq, ih hnd.2 h]

theorem mem_mapSet {α : Type} (l : List (String × Entry α)) (k : String)
    (e : Entry α) (p : String × Entry α) (hp : p ∈ mapSet l k e) :
    p = (k, e) ∨ p ∈ l := by
  induction l with
  | nil => simpa [mapSet] using hp
  | cons q rest ih =>
    by_cases h : q.1 = k
    · simp only [mapSet, if_pos h] at hp
      rcases List.mem_cons.mp hp with h' | h'
      · exact Or.inl h'
      · exact Or.inr (List.mem_cons_of_mem q h')
    · simp only [mapSet, if_neg h] at hp
      rcases List.mem_cons.mp hp with h' | h'
      · exact Or.inr (h' ▸ List.mem_cons_self q rest)
      · rcases ih h' with h'' | h''
        · exact Or.inl h''
        · exact Or.inr (List.mem_cons_of_mem q h'')

theorem mem_mapDelete {α : Type} (l : List (String × Entry α)) (k : String)
    (p : String × Entry α) (hp : p ∈ mapDelete l k) : p ∈ l :=
  (List.mem_filter.mp hp).1

theorem length_mapSet_le {α : Type} (l : List (String × Entry α)) (k : String)
    (e : Entry α) : (mapSet l k e).length ≤ l.length + 1 := by
  induction l with
  | nil => simp [mapSet]
  | cons p rest ih =>
    by_cases h : p.1 = k
    · simp [mapSet, h]
    · simpa [mapSet, h] using Nat.succ_le_succ ih

theorem length_mapDelete_lt {α : Type} (l : List (String × Entry α)) (k : String)
    (h : ∃ p ∈ l, p.1 = k) : (mapDelete l k).length < l.length := by
  rcases h with ⟨p, hp, hk⟩
  exact List.length_filter_lt_length_iff_exists.mpr ⟨p, hp, by simp [hk]⟩

theorem mapSet_eq_append_of_not_mem {α : Type} (l : List (String × Entry α))
    (k : String) (e : Entry α) (h : k ∉ l.map Prod.fst) :
    mapSet l k e = l ++ [(k, e)] := by
  induction l with
  | nil => rfl
  | cons p rest ih =>
    simp only [List.map_cons, List.mem_cons, not_or] at h
    simp [mapSet, Ne.symm h.1, ih h.2]

theorem mapDelete_cons_of_not_mem {α : Type} (hd : String × Entry α)
    (rest : List (String × Entry α)) (h : hd.1 ∉ rest.map Prod.fst) :
    mapDelete (hd :: rest) hd.1 = rest := by
  have hrest : mapDelete rest hd.1 = rest :=
    List.filter_eq_self.mpr (fun p hp => by
      have hne : p.1 ≠ hd.1 := fun he => h (he ▸ List.mem_map_of_mem Prod.fst hp)
      simpa using hne)
  have hhd : mapDelete (hd :: rest) hd.1 = mapDelete rest hd.1 := by
    simp [mapDelete, List.filter_cons]
  rw [hhd, hrest]

/-! ### Lemmas about the `evictOldest` scan -/

/-- Once the scan holds a candidate, the result's key is that candidate's
or one of the remaining entries'. -/
theorem findOldest_fold_key {α : Type} (xs : List (String × Entry α)) :
    ∀ (k : String) (t : Nat),
      (xs.foldl
        (fun acc p =>
          match acc.2 with
          | none => (some p.1, some p.2.timestamp)
          | some t' => if p.2.timestamp < t' then (some p.1, some p.2.timestamp) else acc)
        (some k, some t)).1 = some k ∨
      ∃ p ∈ xs,
        (xs.foldl
          (fun acc p =>
            match acc.2 with
            | none => (some p.1, some p.2.timestamp)
            | some t' => if p.2.timestamp < t' then (some p.1, some p.2.timestamp) else acc)
          (some k, some t)).1 = some p.1 := by
  induction xs with
  | nil => intro k t; exact Or.inl rfl
  | cons x xs ih =>
    intro k t
    simp only [List.foldl_cons]
    by_cases hx : x.2.timestamp < t
    · rcases ih x.1 x.2.timestamp with h | ⟨p, hp, h⟩
      · exact Or.inr ⟨x, List.mem_cons_self x xs, by simpa [hx] using h⟩
      · exact Or.inr ⟨p, List.mem_cons_of_mem x hp, by simpa [hx] using h⟩
    · rcases ih k t with h | ⟨p, hp, h⟩
      · exact Or.inl (by simpa [hx] using h)
      · exact Or.inr ⟨p, List.mem_cons_of_mem x hp, by simpa [hx] using h⟩

/-- On a non-empty map the scan returns the key of one of the entries. -/
theorem findOldest_key_mem {α : Type} (l : List (String × Entry α)) (h : l ≠ []) :
    ∃ p ∈ l, (findOldest l).1 = some p.1 := by
  match l, h with
  | x :: xs, _ =>
    rw [findOldest, List.foldl_cons]
    rcases findOldest_fold_key xs x.1 x.2.timestamp with h' | ⟨p, hp, h'⟩
    · exact ⟨x, List.mem_cons_self x xs, h'⟩
    · exact ⟨p, List.mem_cons_of_mem x hp, h'⟩

/-- A candidate that no remaining entry strictly beats survives the scan. -/
theorem findOldest_fold_const {α : Type} (xs : List (String × Entry α))
    (k : String) (t : Nat) (h : ∀ p ∈ xs, ¬ p.2.timestamp < t) :
    (xs.foldl
      (fun acc p =>
        match acc.2 with
        | none => (some p.1, some p.2.timestamp)
        | some t' => if p.2.timestamp < t' then (some p.1, some p.2.timestamp) else acc)
      (some k, some t)) = (some k, some t) := by
  induction xs with
  | nil => rfl
  | cons x xs ih =>
    simp only [List.foldl_cons]
    rw [if_neg (h x (List.mem_cons_self x xs))]
    exact ih (fun p hp => h p (List.mem_cons_of_mem x hp))

/-- If the head's timestamp is strictly smaller than every other entry's,
the scan returns the head. -/
theorem findOldest_cons_min {α : Type} (hd : String × Entry α)
    (rest : List (String × Entry α))
    (h : ∀ p ∈ rest, hd.2.timestamp < p.2.timestamp) :
    findOldest (hd :: rest) = (some hd.1, some hd.2.timestamp) := by
  rw [findOldest, List.foldl_cons]
  exact findOldest_fold_const rest hd.1 hd.2.timestamp
    (fun p hp => Nat.not_lt.mpr (Nat.le_of_lt (h p hp)))

/-! ### Preservation of the construction options and the key/size invariant -/

theorem evictOldest_maxSize {α : Type} (c : CacheManager α) :
    c.evictOldest.maxSize = c.maxSize := by
  rw [CacheManager.evictOldest]
  rcases h : (findOldest c.cache).1 with _ | k
  · rfl
  · by_cases hk : k = "" <;> simp [hk]

theorem evictOldest_maxAge {α : Type} (c : CacheManager α) :
    c.evictOldest.maxAge = c.maxAge := by
  rw [CacheManager.evictOldest]
  rcases h : (findOldest c.cache).1 with _ | k
  · rfl
  · by_cases hk : k = "" <;> simp [hk]

theorem set_maxSize {α : Type} (c : CacheManager α) (k : String) (v : α) (now : Nat) :
    (c.set k v now).maxSize = c.maxSize := by
  rw [CacheManager.set]
  by_cases h : c.cache.length ≥ c.maxSize <;> simp [h, evictOldest_maxSize]

theorem set_maxAge {α : Type} (c : CacheManager α) (k : String) (v : α) (now : Nat) :
    (c.set k v now).maxAge = c.maxAge := by
  rw [CacheManager.set]
  by_cases h : c.cache.length ≥ c.maxSize <;> simp [h, evictOldest_maxAge]

theorem get_snd_maxSize {α : Type} (c : CacheManager α) (k : String) (now : Nat) :
    (c.get k now).2.maxSize = c.maxSize := by
  rw [CacheManager.get]
  rcases h : mapGet c.cache k with _ | e
  · rfl
  · by_cases he : now - e.timestamp > c.maxAge <;> simp [he]

theorem get_snd_maxAge {α : Type} (c : CacheManager α) (k : String) (now : Nat) :
    (c.get k now).2.maxAge = c.maxAge := by
  rw [CacheManager.get]
  rcases h : mapGet c.cache k with _ | e
  · rfl
  · by_cases he : now - e.timestamp > c.maxAge <;> simp [he]

theorem applyOp_maxSize {α : Type} (c : CacheManager α) (op : CacheOp α) :
    (applyOp c op).maxSize = c.maxSize := by
  cases op with
  | set k v now => exact set_maxSize c k v now
  | get k now => exact get_snd_maxSize c k now
  | clear => rfl

/-- An operation is within the nonempty-key discipline when any key it
writes is a nonempty string. -/
def opKeyOk {α : Type} : CacheOp α → Bool
  | .set k _ _ => k != ""
  | .get _ _ => true
  | .clear => true

/-- The data-model invariant: the entry count respects `maxSize` and every
stored key is a nonempty string. -/
def CacheInv {α : Type} (c : CacheManager α) : Prop :=
  c.cache.length ≤ c.maxSize ∧ ∀ p ∈ c.cache, p.1 ≠ ""

theorem set_inv {α : Type} (c : CacheManager α) (k : String) (v : α) (now : Nat)
    (hms : 1 ≤ c.maxSize) (hinv : CacheInv c) (hk : k ≠ "") :
    CacheInv (c.set k v now) := by
  obtain ⟨hlen, hkeys⟩ := hinv
  rw [CacheManager.set]
  by_cases hfull : c.cache.length ≥ c.maxSize
  · -- at capacity: the scan finds a stored (hence nonempty) key and deletes it
    have hne : c.cache ≠ [] := by
      intro h0
      rw [h0] at hfull
      simp only [List.length_nil] at hfull
      omega
    obtain ⟨p, hp, hfp⟩ := findOldest_key_mem c.cache hne
    have hkp : p.1 ≠ "" := hkeys p hp
    have hev : c.evictOldest = { c with cache := mapDelete c.cache p.1 } := by
      rw [CacheManager.evictOldest, hfp]
      simp [hkp]
    have hdel : (mapDelete c.cache p.1).length < c.cache.length :=
      length_mapDelete_lt c.cache p.1 ⟨p, hp, rfl⟩
    constructor
    · simp only [if_pos hfull, hev]
      have := length_mapSet_le (mapDelete c.cache p.1) k ⟨v, now⟩
      omega
    · intro q hq
      simp only [if_pos hfull, hev] at hq
      rcases mem_mapSet _ _ _ q hq with h | h
      · rw [h]; exact hk
      · exact hkeys q (mem_mapDelete _ _ q h)
  · constructor
    · simp only [if_neg hfull]
      have := length_mapSet_le c.cache k ⟨v, now⟩
      omega
    · intro q hq
      simp only [if_neg hfull] at hq
      rcases mem_mapSet _ _ _ q hq with h | h
      · rw [h]; exact hk
      · exact hkeys q h

theorem get_inv {α : Type} (c : CacheManager α) (k : String) (now : Nat)
    (hinv : CacheInv c) : CacheInv (c.get k now).2 := by
  obtain ⟨hlen, hkeys⟩ := hinv
  rw [CacheManager.get]
  rcases h : mapGet c.cache k with _ | e
  · exact ⟨hlen, hkeys⟩
  · by_cases he : now - e.timestamp > c.maxAge
    · simp only [if_pos he]
      refine ⟨le_trans (List.length_filter_le _ _) hlen, ?_⟩
      intro q hq
      exact hkeys q (mem_mapDelete _ _ q hq)
    · simp only [if_neg he]
      exact ⟨hlen, hkeys⟩

theorem applyOp_inv {α : Type} (c : CacheManager α) (op : CacheOp α)
    (hms : 1 ≤ c.maxSize) (hinv : CacheInv c) (hop : opKeyOk op = true) :
    CacheInv (applyOp c op) := by
  cases op with
  | set k v now =>
    exact set_inv c k v now hms hinv (by simpa [opKeyOk] using hop)
  | get k now => exact get_inv c k now hinv
  | clear => exact ⟨by simp [applyOp, CacheManager.clear], by simp [applyOp, CacheManager.clear]⟩

theorem applyOps_inv {α : Type} (ops : List (CacheOp α)) :
    ∀ (c : CacheManager α), 1 ≤ c.maxSize → CacheInv c →
      (∀ op ∈ ops, opKeyOk op = true) → CacheInv (applyOps c ops) := by
  induction ops with
  | nil => intro c _ hinv _; exact hinv
  | cons op ops ih =>
    intro c hms hinv hops
    rw [applyOps, List.foldl_cons]
    have h1 : CacheInv (applyOp c op) :=
      applyOp_inv c op hms hinv (hops op (List.mem_cons_self op ops))
    have hms1 : 1 ≤ (applyOp c op).maxSize := by rw [applyOp_maxSize]; exact hms
    exact ih (applyOp c op) hms1 h1 (fun o ho => hops o (List.mem_cons_of_mem op ho))

theorem applyOps_maxSize {α : Type} (ops : List (CacheOp α)) :
    ∀ c : CacheManager α, (applyOps c ops).maxSize = c.maxSize := by
  induction ops with
  | nil => intro c; rfl
  | cons op ops ih =>
    intro c
    rw [applyOps, List.foldl_cons]
    rw [show (List.foldl applyOp (applyOp c op) ops) = applyOps (applyOp c op) ops from rfl]
    rw [ih (applyOp c op), applyOp_maxSize]

/-! ### Claim C1 -/

/-- C1 (counterexample): the capacity invariant fails for arbitrary string
keys.  With `maxSize = 1`, inserting under the empty-string key and then
under `"x"` leaves two entries: `evictOldest` finds the empty key but its
`if (oldestKey)` truthiness guard treats `""` as absent, so nothing is
evicted before the second insert. -/
theorem C1_counterexample :
    ¬ ((applyOps (CacheManager.init JsValue 300000 1)
        [CacheOp.set "" (JsValue.num 1) 0,
         CacheOp.set "x" (JsValue.num 2) 1]).cache.length ≤ 1) := by
  decide

/-- C1 (amended): for a cache constructed with `maxSize > 0`, and any
sequence of `set`/`get`/`clear` operations in which every written key is a
nonempty string, the entry count is at most `maxSize` immediately after
every `set` call. -/
theorem C1_size_invariant (maxAge maxSize : Nat) (hms : 0 < maxSize)
    (ops : List (CacheOp JsValue)) (k : String) (v : JsValue) (t : Nat)
    (hops : ∀ op ∈ ops, opKeyOk op = true) (hk : k ≠ "") :
    (applyOps (CacheManager.init JsValue maxAge maxSize)
      (ops ++ [CacheOp.set k v t])).cache.length ≤ maxSize := by
  have hinv0 : CacheInv (CacheManager.init JsValue maxAge maxSize) :=
    ⟨by simp [CacheManager.init], by simp [CacheManager.init]⟩
  have hops' : ∀ op ∈ ops ++ [CacheOp.set k v t], opKeyOk op = true := by
    intro op hop
    rcases List.mem_append.mp hop with h | h
    · exact hops op h
    · rcases List.mem_singleton.mp h with rfl
      simpa [opKeyOk] using hk
  have h := applyOps_inv (ops ++ [CacheOp.set k v t])
    (CacheManager.init JsValue maxAge maxSize) hms hinv0 hops'
  have hms' := applyOps_maxSize (ops ++ [CacheOp.set k v t])
    (CacheManager.init JsValue maxAge maxSize)
  have h1 := h.1
  rw [hms'] at h1
  exact h1

/-- C1 (witness): a concrete run of the amended invariant at `maxSize = 2`. -/
theorem C1_size_invariant_witness :
    (applyOps (CacheManager.init JsValue 300000 2)
      ([CacheOp.set "a" (JsValue.num 1) 0, CacheOp.get "a" 1,
        CacheOp.set "b" (JsValue.str "x") 2] ++
       [CacheOp.set "c" JsValue.null 3])).cache.length ≤ 2 :=
  C1_size_invariant 300000 2 (by decide)
    [CacheOp.set "a" (JsValue.num 1) 0, CacheOp.get "a" 1,
     CacheOp.set "b" (JsValue.str "x") 2] "c" JsValue.null 3
    (by decide) (by decide)

/-! ### Claim C2 -/

/-- C2 (counterexample): overwriting an existing key does trigger eviction
when the cache is at capacity.  With `maxSize = 2` holding `"a"` and `"b"`,
overwriting the already-present key `"b"` evicts `"a"`: `set` only checks
`size >= maxSize`, not whether the key is already counted. -/
theorem C2_counterexample :
    mapGet (applyOps (CacheManager.init JsValue 300000 2)
      [CacheOp.set "a" (JsValue.num 1) 0,
       CacheOp.set "b" (JsValue.num 2) 1]).cache "a" = some ⟨JsValue.num 1, 0⟩ ∧
    mapGet ((applyOps (CacheManager.init JsValue 300000 2)
      [CacheOp.set "a" (JsValue.num 1) 0,
       CacheOp.set "b" (JsValue.num 2) 1]).set "b" (JsValue.num 3) 2).cache "a" =
      none := by
  decide

/-- C2 (amended): when the cache is strictly below capacity, `set` on an
already-present key `k` overwrites `k`'s entry and evicts nothing — any
other key's binding is exactly what it was before the call. -/
theorem C2_overwrite_no_evict (cm : CacheManager JsValue) (k k' : String)
    (v : JsValue) (now : Nat) (e : Entry JsValue)
    (hpresent : mapGet cm.cache k = some e)
    (hroom : cm.cache.length < cm.maxSize)
    (hne : k' ≠ k) :
    mapGet (cm.set k v now).cache k = some ⟨v, now⟩ ∧
    mapGet (cm.set k v now).cache k' = mapGet cm.cache k' := by
  have hnot : ¬ cm.cache.length ≥ cm.maxSize := by omega
  constructor
  · simp only [CacheManager.set, if_neg hnot]
    exact mapGet_mapSet_self cm.cache k ⟨v, now⟩
  · simp only [CacheManager.set, if_neg hnot]
    exact mapGet_mapSet_ne cm.cache k k' ⟨v, now⟩ hne

/-- C2 (witness): a concrete below-capacity overwrite. -/
theorem C2_overwrite_no_evict_witness :
    mapGet ((CacheManager.mk [("a", ⟨JsValue.num 1, 0⟩)] 300000 2).set "a"
      (JsValue.num 5) 7).cache "a" = some ⟨JsValue.num 5, 7⟩ ∧
    mapGet ((CacheManager.mk [("a", ⟨JsValue.num 1, 0⟩)] 300000 2).set "a"
      (JsValue.num 5) 7).cache "b" =
      mapGet (CacheManager.mk [("a", ⟨JsValue.num 1, 0⟩)] 300000 2).cache "b" :=
  C2_overwrite_no_evict (CacheManager.mk [("a", ⟨JsValue.num 1, 0⟩)] 300000 2)
    "a" "b" (JsValue.num 5) 7 ⟨JsValue.num 1, 0⟩ (by decide) (by decide) (by decide)

/-! ### Claim C3 -/

/-- C3 (counterexample): a cached falsy value does not short-circuit.  With
`JsValue.num 0` freshly cached under the computed key, `request` does not
return the cached value and invokes the transport: `if (cached)` treats the
cached `0` as a miss. -/
theorem C3_counterexample :
    ¬ ((ApiClient.request ⟨"", 5000, 1⟩
          (CacheManager.mk
            [(computeCacheKey "GET" "/x" none, ⟨JsValue.num 0, 0⟩)] 300000 100)
          "GET" "/x" none true (fun _ => .ok (JsValue.str "net")) 0).outcome =
        .ok (JsValue.num 0) ∧
       (ApiClient.request ⟨"", 5000, 1⟩
          (CacheManager.mk
            [(computeCacheKey "GET" "/x" none, ⟨JsValue.num 0, 0⟩)] 300000 100)
          "GET" "/x" none true (fun _ => .ok (JsValue.str "net")) 0).calls = 0) :=
  fun h => absurd h.2 (by decide)

/-- C3 (amended): with `useCache` set and a non-expired cached entry under
the computed key whose stored value is truthy, `request` returns the cached
value with no transport invocation, no backoff wait, and the cache state
untouched. -/
theorem C3_cache_hit_short_circuit (cfg : ApiConfig) (cm : CacheManager JsValue)
    (method endpoint : String) (body : Option JsValue)
    (transport : Nat → Except String JsValue) (now : Nat) (e : Entry JsValue)
    (hget : mapGet cm.cache (computeCacheKey method endpoint body) = some e)
    (hfresh : now - e.timestamp ≤ cm.maxAge)
    (htruthy : e.value.truthy = true) :
    ApiClient.request cfg cm method endpoint body true transport now =
      ⟨.ok e.value, 0, [], cm⟩ := by
  have hno : ¬ now - e.timestamp > cm.maxAge := by omega
  simp only [ApiClient.request, CacheManager.get, hget, if_neg hno, if_true, htruthy]

/-- C3 (witness): a concrete truthy cache hit. -/
theorem C3_cache_hit_short_circuit_witness :
    ApiClient.request ⟨"", 5000, 3⟩
      (CacheManager.mk
        [(computeCacheKey "GET" "/x" none, ⟨JsValue.str "v", 0⟩)] 300000 100)
      "GET" "/x" none true (fun _ => .ok (JsValue.str "net")) 10 =
      ⟨.ok (JsValue.str "v"), 0, [],
        CacheManager.mk
          [(computeCacheKey "GET" "/x" none, ⟨JsValue.str "v", 0⟩)] 300000 100⟩ :=
  C3_cache_hit_short_circuit ⟨"", 5000, 3⟩
    (CacheManager.mk
      [(computeCacheKey "GET" "/x" none, ⟨JsValue.str "v", 0⟩)] 300000 100)
    "GET" "/x" none (fun _ => .ok (JsValue.str "net")) 10 ⟨JsValue.str "v", 0⟩
    (by decide) (by decide) (by decide)

/-! ### Claim C4 -/

/-- C4: with `retryAttempts = 3` and a transport failing on the first two
invocations and succeeding on the third, `request` resolves with the
success value after exactly 3 transport invocations and backoff waits of
`1000 * 1 = 1000` ms then `1000 * 2 = 2000` ms (linear, not exponential). -/
theorem C4_retry_linear_backoff (cm : CacheManager JsValue)
    (baseUrl : String) (timeout : Nat) (method endpoint : String)
    (body : Option JsValue) (transport : Nat → Except String JsValue)
    (now : Nat) (e1 e2 : String) (v : JsValue)
    (h0 : transport 0 = .error e1) (h1 : transport 1 = .error e2)
    (h2 : transport 2 = .ok v) :
    (ApiClient.request ⟨baseUrl, timeout, 3⟩ cm method endpoint body false
        transport now).outcome = .ok v ∧
    (ApiClient.request ⟨baseUrl, timeout, 3⟩ cm method endpoint body false
        transport now).calls = 3 ∧
    (ApiClient.request ⟨baseUrl, timeout, 3⟩ cm method endpoint body false
        transport now).waits = [1000, 2000] := by
  have hr : ApiClient.request ⟨baseUrl, timeout, 3⟩ cm method endpoint body false
      transport now =
      attemptLoop transport false (computeCacheKey method endpoint body) now cm 0 3 := by
    simp [ApiClient.request]
  rw [hr]
  simp [attemptLoop, h0, h1, h2]

/-- C4 (witness): a concrete fails-twice-then-succeeds transport. -/
theorem C4_retry_linear_backoff_witness :
    (ApiClient.request ⟨"u", 5000, 3⟩ (CacheManager.init JsValue 300000 100)
        "GET" "/e" none false
        (fun i => if i = 0 then .error "f0"
                  else if i = 1 then .error "f1" else .ok (JsValue.num 7))
        0).outcome = .ok (JsValue.num 7) ∧
    (ApiClient.request ⟨"u", 5000, 3⟩ (CacheManager.init JsValue 300000 100)
        "GET" "/e" none false
        (fun i => if i = 0 then .error "f0"
                  else if i = 1 then .error "f1" else .ok (JsValue.num 7))
        0).calls = 3 ∧
    (ApiClient.request ⟨"u", 5000, 3⟩ (CacheManager.init JsValue 300000 100)
        "GET" "/e" none false
        (fun i => if i = 0 then .error "f0"
                  else if i = 1 then .error "f1" else .ok (JsValue.num 7))
        0).waits = [1000, 2000] :=
  C4_retry_linear_backoff (CacheManager.init JsValue 300000 100) "u" 5000
    "GET" "/e" none
    (fun i => if i = 0 then .error "f0"
              else if i = 1 then .error "f1" else .ok (JsValue.num 7))
    0 "f0" "f1" (JsValue.num 7) rfl rfl rfl

/-! ### Claim C5 -/

theorem attemptLoop_all_fail_outcome (transport : Nat → Except String JsValue)
    (err : Nat → String) (ht : ∀ i, transport i = .error (err i))
    (useCache : Bool) (cacheKey : String) (now : Nat) :
    ∀ (r : Nat) (cm : CacheManager JsValue) (a : Nat), 1 ≤ r →
      (attemptLoop transport useCache cacheKey now cm a r).outcome =
        .error (.lastError (err (a + r - 1))) := by
  intro r
  induction r with
  | zero => intro cm a h; omega
  | succ s ih =>
    intro cm a _
    rw [attemptLoop, ht a]
    by_cases hs : s = 0
    · subst hs; simp
    · simp only [if_neg hs]
      have hrec := ih cm (a + 1) (by omega)
      rw [hrec]
      have harg : a + 1 + s - 1 = a + (s + 1) - 1 := by omega
      rw [harg]

theorem attemptLoop_all_fail_calls (transport : Nat → Except String JsValue)
    (err : Nat → String) (ht : ∀ i, transport i = .error (err i))
    (useCache : Bool) (cacheKey : String) (now : Nat) :
    ∀ (r : Nat) (cm : CacheManager JsValue) (a : Nat),
      (attemptLoop transport useCache cacheKey now cm a r).calls = r := by
  intro r
  induction r with
  | zero => intro cm a; rfl
  | succ s ih =>
    intro cm a
    rw [attemptLoop, ht a]
    by_cases hs : s = 0
    · subst hs; simp
    · simp only [if_neg hs]
      rw [show (attemptLoop transport useCache cacheKey now cm (a + 1) s).calls + 1 =
        s + 1 from by rw [ih cm (a + 1)]]

/-- C5: with `retryAttempts = n >= 1` and a transport failing on every
invocation, `request` makes exactly `n` transport invocations and then
fails, propagating to the caller the exhaustion failure that carries the
last underlying error (the error of attempt `n - 1`); it is never silently
swallowed. -/
theorem C5_exhaustion (baseUrl : String) (timeout : Nat) (n : Nat) (hn : 1 ≤ n)
    (err : Nat → String) (transport : Nat → Except String JsValue)
    (ht : ∀ i, transport i = .error (err i)) (cm : CacheManager JsValue)
    (method endpoint : String) (body : Option JsValue) (now : Nat) :
    (ApiClient.request ⟨baseUrl, timeout, (n : Int)⟩ cm method endpoint body false
        transport now).calls = n ∧
    (ApiClient.request ⟨baseUrl, timeout, (n : Int)⟩ cm method endpoint body false
        transport now).outcome = .error (.lastError (err (n - 1))) := by
  have hr : ApiClient.request ⟨baseUrl, timeout, (n : Int)⟩ cm method endpoint body
      false transport now =
      attemptLoop transport false (computeCacheKey method endpoint body) now cm 0
        (n : Int).toNat := by
    simp [ApiClient.request]
  have htn : ((n : Int)).toNat = n := Int.toNat_natCast n
  rw [hr, htn]
  refine ⟨attemptLoop_all_fail_calls transport err ht false _ now n cm 0, ?_⟩
  have := attemptLoop_all_fail_outcome transport err ht false
    (computeCacheKey method endpoint body) now n cm 0 hn
  simpa using this

/-- C5 (witness): the spec's scenario `retryAttempts = 2` with an
always-failing transport: 2 invocations, then the last error surfaces. -/
theorem C5_exhaustion_witness :
    (ApiClient.request ⟨"u", 5000, (2 : Int)⟩ (CacheManager.init JsValue 300000 100)
        "GET" "/e" none false (fun i => .error (toString i)) 0).calls = 2 ∧
    (ApiClient.request ⟨"u", 5000, (2 : Int)⟩ (CacheManager.init JsValue 300000 100)
        "GET" "/e" none false (fun i => .error (toString i)) 0).outcome =
      .error (.lastError (toString (1 : Nat))) :=
  C5_exhaustion "u" 5000 2 (by decide) (fun i => toString i)
    (fun i => .error (toString i)) (fun i => rfl)
    (CacheManager.init JsValue 300000 100) "GET" "/e" none 0

/-! ### Claim C6 -/

/-- C6: for a key whose entry is expired at `get` time
(`now - insertedAt > maxAge`), `get` returns absent and deletes the entry,
so a later `get` of the same key (at any time, before any sweep) is also
absent; conversely while `now - insertedAt <= maxAge` — the boundary
included — `get` returns the stored value. -/
theorem C6_destructive_expiry (cm : CacheManager JsValue) (k : String)
    (e : Entry JsValue) (now now2 : Nat)
    (h : mapGet cm.cache k = some e) :
    (now - e.timestamp > cm.maxAge →
      (cm.get k now).1 = none ∧ (((cm.get k now).2).get k now2).1 = none) ∧
    (now - e.timestamp ≤ cm.maxAge → (cm.get k now).1 = some e.value) := by
  constructor
  · intro hexp
    have hg : cm.get k now = (none, { cm with cache := mapDelete cm.cache k }) := by
      simp only [CacheManager.get, h, if_pos hexp]
    rw [hg]
    refine ⟨rfl, ?_⟩
    simp only [CacheManager.get, mapGet_mapDelete_self]
  · intro hfresh
    have hno : ¬ now - e.timestamp > cm.maxAge := by omega
    simp only [CacheManager.get, h, if_neg hno]

/-- C6 (witness): `maxAge = 10`, entry stamped at 0: a `get` at 11 expires
it destructively; the boundary read at exactly 10 returns the value.  The
first conjunct is exercised at `now = 11`. -/
theorem C6_destructive_expiry_witness :
    ((11 - (0 : Nat) > 10 →
      ((CacheManager.mk [("k", ⟨JsValue.str "v", 0⟩)] 10 100).get "k" 11).1 = none ∧
      ((((CacheManager.mk [("k", ⟨JsValue.str "v", 0⟩)] 10 100).get "k" 11).2).get
          "k" 12).1 = none) ∧
     (11 - (0 : Nat) ≤ 10 →
      ((CacheManager.mk [("k", ⟨JsValue.str "v", 0⟩)] 10 100).get "k" 11).1 =
        some (JsValue.str "v"))) ∧
    (10 - (0 : Nat) ≤ 10 →
      ((CacheManager.mk [("k", ⟨JsValue.str "v", 0⟩)] 10 100).get "k" 10).1 =
        some (JsValue.str "v")) :=
  ⟨C6_destructive_expiry (CacheManager.mk [("k", ⟨JsValue.str "v", 0⟩)] 10 100)
      "k" ⟨JsValue.str "v", 0⟩ 11 12 (by decide),
   (C6_destructive_expiry (CacheManager.mk [("k", ⟨JsValue.str "v", 0⟩)] 10 100)
      "k" ⟨JsValue.str "v", 0⟩ 10 0 (by decide)).2⟩

/-! ### Claim C9 -/

/-- C9: with `retryAttempts <= 0` (violating the documented precondition)
and no cache hit, the `while` loop body never runs: the transport is never
invoked, no backoff wait occurs, and the call fails with the generic
`'Request failed after all retry attempts'` error rather than any
underlying transport error. -/
theorem C9_nonpositive_attempts (baseUrl : String) (timeout : Nat)
    (retryAttempts : Int) (hra : retryAttempts ≤ 0) (cm : CacheManager JsValue)
    (method endpoint : String) (body : Option JsValue) (useCache : Bool)
    (transport : Nat → Except String JsValue) (now : Nat)
    (hmiss : useCache = true →
      truthyOpt ((cm.get (computeCacheKey method endpoint body) now).1) = false) :
    (ApiClient.request ⟨baseUrl, timeout, retryAttempts⟩ cm method endpoint body
        useCache transport now).outcome = .error .allRetriesFailed ∧
    (ApiClient.request ⟨baseUrl, timeout, retryAttempts⟩ cm method endpoint body
        useCache transport now).calls = 0 ∧
    (ApiClient.request ⟨baseUrl, timeout, retryAttempts⟩ cm method endpoint body
        useCache transport now).waits = [] := by
  have htn : retryAttempts.toNat = 0 := Int.toNat_of_nonpos hra
  cases useCache with
  | false =>
    simp only [ApiClient.request, if_false, Bool.false_eq_true, htn, attemptLoop]
    exact ⟨trivial, trivial, trivial⟩
  | true =>
    have hm := hmiss rfl
    simp only [ApiClient.request, if_true]
    rcases hg : (cm.get (computeCacheKey method endpoint body) now).1 with _ | v
    · simp only [hg, htn, attemptLoop]
      exact ⟨trivial, trivial, trivial⟩
    · rw [hg] at hm
      have hv : v.truthy = false := by simpa [truthyOpt] using hm
      simp only [hg, hv, htn, attemptLoop]
      simp [Bool.false_eq_true]

/-- C9 (witness): `retryAttempts = 0`, caching disabled. -/
theorem C9_nonpositive_attempts_witness :
    (ApiClient.request ⟨"u", 5000, 0⟩ (CacheManager.init JsValue 300000 100)
        "GET" "/e" none false (fun _ => .ok (JsValue.num 1)) 0).outcome =
      .error .allRetriesFailed ∧
    (ApiClient.request ⟨"u", 5000, 0⟩ (CacheManager.init JsValue 300000 100)
        "GET" "/e" none false (fun _ => .ok (JsValue.num 1)) 0).calls = 0 ∧
    (ApiClient.request ⟨"u", 5000, 0⟩ (CacheManager.init JsValue 300000 100)
        "GET" "/e" none false (fun _ => .ok (JsValue.num 1)) 0).waits = [] :=
  C9_nonpositive_attempts "u" 5000 0 (by decide)
    (CacheManager.init JsValue 300000 100) "GET" "/e" none false
    (fun _ => .ok (JsValue.num 1)) 0 (by decide)

/-! ### Claim C10 -/

/-- C10: a `get` of a present, non-expired key returns the stored value and
leaves the whole cache state exactly as it was — in particular the entry's
insertion timestamp is not refreshed, so a read neither extends the expiry
deadline nor shields the entry from being picked as oldest by eviction. -/
theorem C10_get_is_pure_on_fresh (cm : CacheManager JsValue) (k : String)
    (e : Entry JsValue) (now : Nat)
    (h : mapGet cm.cache k = some e)
    (hfresh : now - e.timestamp ≤ cm.maxAge) :
    cm.get k now = (some e.value, cm) := by
  have hno : ¬ now - e.timestamp > cm.maxAge := by omega
  simp only [CacheManager.get, h, if_neg hno]

/-- C10 (witness): a concrete fresh read, state returned unchanged. -/
theorem C10_get_is_pure_on_fresh_witness :
    (CacheManager.mk [("k", ⟨JsValue.num 3, 5⟩)] 10 100).get "k" 9 =
      (some (JsValue.num 3), CacheManager.mk [("k", ⟨JsValue.num 3, 5⟩)] 10 100) :=
  C10_get_is_pure_on_fresh (CacheManager.mk [("k", ⟨JsValue.num 3, 5⟩)] 10 100)
    "k" ⟨JsValue.num 3, 5⟩ 9 (by decide) (by decide)

/-! ### Claim C7 -/

/-- Insert a batch of key/entry pairs in order, each `set` stamped with the
entry's timestamp as the current time. -/
def setSeq {α : Type} (c : CacheManager α) (items : List (String × Entry α)) :
    CacheManager α :=
  items.foldl (fun c p => c.set p.1 p.2.value p.2.timestamp) c

/-- Inserting fresh, pairwise-distinct keys while the capacity is never
reached appends the entries in insertion order, evicting nothing. -/
theorem setSeq_fills {α : Type} (items : List (String × Entry α)) :
    ∀ c : CacheManager α,
      c.cache.length + items.length ≤ c.maxSize →
      (∀ p ∈ items, p.1 ∉ c.cache.map Prod.fst) →
      (items.map Prod.fst).Nodup →
      (setSeq c items).cache = c.cache ++ items ∧
      (setSeq c items).maxSize = c.maxSize ∧
      (setSeq c items).maxAge = c.maxAge := by
  induction items with
  | nil => intro c _ _ _; exact ⟨(List.append_nil c.cache).symm, rfl, rfl⟩
  | cons p items ih =>
    intro c hlen hfresh hnodup
    have hnot : ¬ c.cache.length ≥ c.maxSize := by
      simp only [List.length_cons] at hlen
      omega
    have hset : (c.set p.1 p.2.value p.2.timestamp).cache = c.cache ++ [p] := by
      simp only [CacheManager.set, if_neg hnot]
      exact mapSet_eq_append_of_not_mem c.cache p.1 ⟨p.2.value, p.2.timestamp⟩
        (hfresh p (List.mem_cons_self p items))
    simp only [List.map_cons, List.nodup_cons] at hnodup
    have hstep : setSeq c (p :: items) = setSeq (c.set p.1 p.2.value p.2.timestamp) items := by
      rw [setSeq, List.foldl_cons]; rfl
    have hlen' : (c.set p.1 p.2.value p.2.timestamp).cache.length + items.length ≤
        (c.set p.1 p.2.value p.2.timestamp).maxSize := by
      rw [hset, set_maxSize, List.length_append]
      simp only [List.length_cons] at hlen
      simp only [List.length_singleton]
      omega
    have hfresh' : ∀ q ∈ items,
        q.1 ∉ (c.set p.1 p.2.value p.2.timestamp).cache.map Prod.fst := by
      intro q hq
      rw [hset, List.map_append, List.mem_append]
      rintro (h | h)
      · exact hfresh q (List.mem_cons_of_mem p hq) h
      · simp only [List.map_cons, List.map_nil, List.mem_singleton] at h
        exact hnodup.1 (h ▸ List.mem_map_of_mem Prod.fst hq)
    obtain ⟨h1, h2, h3⟩ := ih (c.set p.1 p.2.value p.2.timestamp) hlen' hfresh' hnodup.2
    refine ⟨?_, ?_, ?_⟩
    · rw [hstep, h1, hset, List.append_assoc, List.singleton_append]
    · rw [hstep, h2, set_maxSize]
    · rw [hstep, h3, set_maxAge]

/-- C7 (counterexample): with `maxSize = 1`, inserting the two distinct
keys `""` then `"b"` with strictly increasing timestamps leaves 2 entries,
not 1: the first-inserted key is the empty string, which the
`if (oldestKey)` guard of `evictOldest` refuses to evict. -/
theorem C7_counterexample :
    ¬ ((setSeq (CacheManager.init JsValue 1000 1)
        [("", ⟨JsValue.num 1, 0⟩), ("b", ⟨JsValue.num 2, 1⟩)]).cache.length = 1) := by
  decide

/-- C7 (amended): for a cache with `maxSize = N >= 1`, inserting `N + 1`
distinct keys with strictly increasing timestamps and no intervening
reads — the first-inserted key being a nonempty string — leaves exactly
`N` entries; the single missing key is the first-inserted (oldest) one and
every later key still holds its entry. -/
theorem C7_oldest_evicted (maxAge N : Nat) (first last : String × Entry JsValue)
    (mid : List (String × Entry JsValue))
    (hN : N = mid.length + 1)
    (hnodup : ((first :: (mid ++ [last])).map Prod.fst).Nodup)
    (hmono : ((first :: (mid ++ [last])).map
      (fun p => p.2.timestamp)).Pairwise (· < ·))
    (hfirst : first.1 ≠ "") :
    (setSeq (CacheManager.init JsValue maxAge N)
        (first :: (mid ++ [last]))).cache.length = N ∧
    mapGet (setSeq (CacheManager.init JsValue maxAge N)
        (first :: (mid ++ [last]))).cache first.1 = none ∧
    ∀ p ∈ mid ++ [last],
      mapGet (setSeq (CacheManager.init JsValue maxAge N)
        (first :: (mid ++ [last]))).cache p.1 = some p.2 := by
  simp only [List.map_cons, List.nodup_cons] at hnodup
  obtain ⟨hfk, hnd⟩ := hnodup
  have hndmid : last.1 ∉ mid.map Prod.fst ∧ (mid.map Prod.fst).Nodup := by
    rw [List.map_append] at hnd
    simp only [List.map_cons, List.map_nil, List.nodup_append, List.nodup_singleton,
      List.disjoint_singleton] at hnd
    exact ⟨hnd.2.2, hnd.1⟩
  rw [List.pairwise_map] at hmono
  have hts : ∀ p ∈ mid ++ [last], first.2.timestamp < p.2.timestamp :=
    (List.pairwise_cons.mp hmono).1
  -- phase 1: the first N inserts fill the cache without eviction
  have hfill := setSeq_fills (first :: mid) (CacheManager.init JsValue maxAge N)
    (by simp [CacheManager.init]; omega)
    (by simp [CacheManager.init])
    (by
      simp only [List.map_cons, List.nodup_cons]
      refine ⟨fun hm => hfk (by rw [List.map_append]; exact List.mem_append_left _ hm),
        hndmid.2⟩)
  obtain ⟨hc1, hms1, hma1⟩ := hfill
  have hc1' : (setSeq (CacheManager.init JsValue maxAge N) (first :: mid)).cache =
      first :: mid := by simpa [CacheManager.init] using hc1
  -- split the insertion sequence: the last insert is the (N+1)-st
  have hsplit : setSeq (CacheManager.init JsValue maxAge N) (first :: (mid ++ [last])) =
      (setSeq (CacheManager.init JsValue maxAge N) (first :: mid)).set last.1
        last.2.value last.2.timestamp := by
    rw [show first :: (mid ++ [last]) = (first :: mid) ++ [last] from rfl]
    rw [setSeq, List.foldl_append]
    rfl
  -- phase 2: the last insert evicts exactly the first-inserted key
  set c1 := setSeq (CacheManager.init JsValue maxAge N) (first :: mid) with hc1def
  have hfull : c1.cache.length ≥ c1.maxSize := by
    rw [hc1', hms1]
    simp [CacheManager.init, hN]
  have hoold : findOldest c1.cache = (some first.1, some first.2.timestamp) := by
    rw [hc1']
    exact findOldest_cons_min first mid
      (fun p hp => hts p (List.mem_append_left _ hp))
  have hev : c1.evictOldest = { c1 with cache := mid } := by
    rw [CacheManager.evictOldest, hoold]
    simp only [if_neg hfirst]
    congr 1
    rw [hc1']
    exact mapDelete_cons_of_not_mem first mid
      (fun hm => hfk (by rw [List.map_append]; exact List.mem_append_left _ hm))
  have hcache : (c1.set last.1 last.2.value last.2.timestamp).cache = mid ++ [last] := by
    simp only [CacheManager.set, if_pos hfull, hev]
    exact mapSet_eq_append_of_not_mem mid last.1 ⟨last.2.value, last.2.timestamp⟩
      hndmid.1
  rw [hsplit]
  refine ⟨?_, ?_, ?_⟩
  · rw [hcache]
    simp [hN]
  · rw [hcache]
    exact mapGet_eq_none_of_not_mem (mid ++ [last]) first.1 hfk
  · intro p hp
    rw [hcache]
    exact mapGet_of_nodup (mid ++ [last]) hnd p hp

/-- C7 (witness): `maxSize = 2`, keys `"a"`, `"b"`, `"c"` inserted at times
0, 1, 2: the cache ends with exactly `"b"` and `"c"`. -/
theorem C7_oldest_evicted_witness :
    (setSeq (CacheManager.init JsValue 1000 2)
        (("a", ⟨JsValue.num 1, 0⟩) ::
          ([("b", ⟨JsValue.num 2, 1⟩)] ++ [("c", ⟨JsValue.num 3, 2⟩)]))).cache.length = 2 ∧
    mapGet (setSeq (CacheManager.init JsValue 1000 2)
        (("a", ⟨JsValue.num 1, 0⟩) ::
          ([("b", ⟨JsValue.num 2, 1⟩)] ++ [("c", ⟨JsValue.num 3, 2⟩)]))).cache "a" = none ∧
    ∀ p ∈ [("b", ⟨JsValue.num 2, 1⟩)] ++ [("c", (⟨JsValue.num 3, 2⟩ : Entry JsValue))],
      mapGet (setSeq (CacheManager.init JsValue 1000 2)
        (("a", ⟨JsValue.num 1, 0⟩) ::
          ([("b", ⟨JsValue.num 2, 1⟩)] ++ [("c", ⟨JsValue.num 3, 2⟩)]))).cache p.1 =
        some p.2 :=
  C7_oldest_evicted 1000 2 ("a", ⟨JsValue.num 1, 0⟩) ("c", ⟨JsValue.num 3, 2⟩)
    [("b", ⟨JsValue.num 2, 1⟩)] (by decide) (by decide) (by decide) (by decide)

/-! ### Claim C8 -/

theorem applyOpsW_world {α : Type} (ops : List (CacheOp α)) :
    ∀ s : CacheManager α × TimerWorld, (applyOpsW s ops).2 = s.2 := by
  induction ops with
  | nil => intro s; rfl
  | cons op ops ih =>
    intro s
    rw [applyOpsW, List.foldl_cons]
    exact (ih (applyOpW s op)).trans rfl

/-- C8 (code behaviour): the recurring sweep timer registered by the
`CacheManager` constructor is never released.  The instance state stores no
handle for it, and after any sequence of the public operations (`set`,
`get`, `clear` — the class exposes nothing else) the timer registered at
construction is still active: no stop/disconnect operation exists. -/
theorem C8_sweep_timer_never_released (α : Type) (maxAge maxSize : Nat)
    (w : TimerWorld) (ops : List (CacheOp α)) :
    (applyOpsW (CacheManager.construct α maxAge maxSize w) ops).2 =
      (CacheManager.construct α maxAge maxSize w).2 ∧
    w.nextId ∈ (applyOpsW (CacheManager.construct α maxAge maxSize w) ops).2.active := by
  have hw := applyOpsW_world ops (CacheManager.construct α maxAge maxSize w)
  refine ⟨hw, ?_⟩
  rw [hw]
  show w.nextId ∈ w.active ++ [w.nextId]
  exact List.mem_append_right _ (List.mem_singleton.mpr rfl)
